import Mathlib

/-!
Shallow embedding of the columnar core of the clickhouse-cpp client
(type descriptors, the column family, the block container and the wire
codec), translated from the C++ sources under clickhouse/ :
block.cpp/.h, columns/column.h, columns/numeric.h, columns/string.cpp/.h,
columns/array.cpp/.h, columns/nullable.h, columns/date.cpp/.h.

Machine integers are modelled as Nat; 64-bit wrap-around is made explicit
(add64 / sub64) where arbitrary uint64 values can occur (array offsets,
which are read from the wire).  Byte streams are lists of byte values.
Fallible operations (C++ exceptions, load failure, null-pointer
dereference) return Option / Except.
-/

namespace ClickHouseModel

/-- Kind codes of the numeric column template ColumnVector T
(numeric.h: ColumnUInt8 .. ColumnInt64). -/
inductive ScalarKind where
  | uint8 | uint16 | uint32 | uint64
  | int8 | int16 | int32 | int64
deriving DecidableEq

/-- sizeof(T) for the numeric column element type. -/
def ScalarKind.width : ScalarKind → Nat
  | .uint8 => 1
  | .uint16 => 2
  | .uint32 => 4
  | .uint64 => 8
  | .int8 => 1
  | .int16 => 2
  | .int32 => 4
  | .int64 => 8

/-- Modelled from the spec: the type descriptor (types/types.h is not under
src/).  A kind code plus kind-specific parameters; structural equality is
decidable equality of this tree (spec section 3.1).  Only the kinds used by
the embedded column variants are included. -/
inductive CType where
  | scalar (k : ScalarKind)
  | fixedString (w : Nat)
  | string
  | date
  | dateTime
  | array (elem : CType)
  | nullable (nested : CType)
deriving DecidableEq

/-- Nesting depth of a descriptor (used as recursion fuel for
append-from-same, whose C++ recursion descends through array / nullable
child columns). -/
def CType.depth : CType → Nat
  | .array t => t.depth + 1
  | .nullable t => t.depth + 1
  | _ => 0

/-- 2 ^ 64, the modulus of uint64 arithmetic. -/
def U64MOD : Nat := 2 ^ 64

/-- uint64 addition (wraps modulo 2 ^ 64). -/
def add64 (a b : Nat) : Nat := (a + b) % U64MOD

/-- uint64 subtraction (two's-complement wrap for a, b < 2 ^ 64). -/
def sub64 (a b : Nat) : Nat := (U64MOD + a - b) % U64MOD

/-- Modelled from the spec: SliceVector helper (columns/utils.h is not under
src/): the elements of v in positions [b, b+l), with an out-of-range begin
yielding the empty vector and an overshooting length clamped to the end of
the vector. -/
def sliceVector (v : List α) (b l : Nat) : List α := (v.drop b).take l

/-- std::vector::resize(n, fill): keep the first n elements, pad with fill. -/
def resizeList (v : List α) (n : Nat) (fill : α) : List α :=
  v.take n ++ List.replicate (n - v.length) fill

/-- memcpy of src into buf at position pos (valid when pos + src.length does
not exceed buf.length, which callers guarantee by resizing first). -/
def listWrite (buf : List α) (pos : Nat) (src : List α) : List α :=
  buf.take pos ++ src ++ buf.drop (pos + src.length)

/-- The column family (columns/*.h): a tagged sum over the embedded
variants.  Each constructor carries the data members of the C++ class:
ColumnVector keeps its element buffer; ColumnFixedString keeps the byte
buffer data_ (whose length is the allocated capacity) and the logical row
count size_; ColumnString keeps the string vector data_ (again possibly
longer than the logical size) and size_; ColumnDate / ColumnDateTime wrap
the buffer of their inner UInt16 / UInt32 column; ColumnArray owns its
inner column and the uint64 offsets buffer; ColumnNullable owns its nested
column and the uint8 null-flag buffer. -/
inductive Column where
  | vec (k : ScalarKind) (data_ : List Nat)
  | fixedString (string_size_ : Nat) (data_ : List Nat) (size_ : Nat)
  | string (data_ : List (List Nat)) (size_ : Nat)
  | date (data_ : List Nat)
  | dateTime (data_ : List Nat)
  | array (adata_ : Column) (offsets_ : List Nat)
  | nullable (nested_ : Column) (nulls_ : List Nat)
deriving DecidableEq

/-- Column::Type(): the descriptor carried by a column. -/
def Column.type : Column → CType
  | .vec k _ => .scalar k
  | .fixedString w _ _ => .fixedString w
  | .string _ _ => .string
  | .date _ => .date
  | .dateTime _ => .dateTime
  | .array d _ => .array d.type
  | .nullable n _ => .nullable n.type

/-- Column::Size() of each variant (string.cpp, array.cpp, date.cpp; the
numeric and nullable bodies are not under src/ and follow the spec:
row count of the buffer, and for nullable the null-flag column length). -/
def Column.Size : Column → Nat
  | .vec _ d => d.length
  | .fixedString _ _ s => s
  | .string _ s => s
  | .date d => d.length
  | .dateTime d => d.length
  | .array _ off => off.length
  | .nullable _ nulls => nulls.length

/-- Column::Clear() of each variant.  ColumnFixedString::Clear sets size_
to 0 and memsets the buffer (string.cpp); ColumnString::Clear empties every
stored string but keeps the slots (string.cpp); ColumnArray::Clear clears
offsets and inner data (array.cpp); the numeric and nullable bodies are not
under src/ and follow the spec: size becomes 0. -/
def Column.Clear : Column → Column
  | .vec k _ => .vec k []
  | .fixedString w buf _ => .fixedString w (List.replicate buf.length 0) 0
  | .string d _ => .string (d.map (fun _ => [])) 0
  | .date _ => .date []
  | .dateTime _ => .dateTime []
  | .array d _ => .array d.Clear []
  | .nullable n _ => .nullable n.Clear []

/-- Column::ReserveRows of each variant: capacity hints only, so the
observable state is unchanged; ColumnArray::ReserveRows forwards rows
offsets and 2 * rows inner elements (array.cpp). -/
def Column.ReserveRows : Column → Nat → Column
  | .vec k d, _ => .vec k d
  | .fixedString w buf s, _ => .fixedString w buf s
  | .string d s, _ => .string d s
  | .date d, _ => .date d
  | .dateTime d, _ => .dateTime d
  | .array d off, rows => .array (d.ReserveRows (rows * 2)) off
  | .nullable n nulls, rows => .nullable (n.ReserveRows rows) nulls

/-- Error kinds of the library (spec section 7). -/
inductive ColumnError where
  | unsupported
  | outOfRange
  | invalidArgument
deriving DecidableEq

/-! ### Wire primitives

Modelled from the spec (base/coded.h, base/wire_format.h are not under
src/): little-endian fixed-width integers, LEB128-style varuints whose
decoding fails after ten bytes without a terminator, and length-prefixed
byte strings (spec section 4.A).  A stream is a list of byte values. -/

/-- Little-endian encoding of a value into width bytes. -/
def uintLE (width n : Nat) : List Nat :=
  (List.range width).map (fun i => n / 256 ^ i % 256)

/-- Value of a little-endian byte run (first byte least significant). -/
def bytesToNat (bs : List Nat) : Nat := bs.foldr (fun b acc => b + 256 * acc) 0

/-- ReadBytes: consume exactly n bytes, failing if the stream runs short. -/
def readBytes (n : Nat) (input : List Nat) : Option (List Nat × List Nat) :=
  if n ≤ input.length then some (input.take n, input.drop n) else none

/-- Read rows little-endian values of the given byte width. -/
def readVecValues (width : Nat) : Nat → List Nat → Option (List Nat × List Nat)
  | 0, input => some ([], input)
  | rows + 1, input => do
      let (bs, r1) ← readBytes width input
      let (vs, r2) ← readVecValues width rows r1
      pure (bytesToNat bs :: vs, r2)

/-- One varuint encoding step with explicit fuel (the value divided by 128
strictly decreases, so fuel equal to the value suffices; the fuel-0 fallback
is unreachable for that choice and matches the n = 0 output). -/
def varuintEncodeGo : Nat → Nat → List Nat
  | 0, n => [n % 128]
  | fuel + 1, n =>
      if n < 128 then [n] else (n % 128 + 128) :: varuintEncodeGo fuel (n / 128)

/-- WriteVarint: LEB128, 7 payload bits per byte, MSB = continuation. -/
def varuintEncode (n : Nat) : List Nat := varuintEncodeGo n n

/-- ReadVarint worker: at most fuel more bytes may be consumed. -/
def varuintDecodeAux : Nat → Nat → Nat → List Nat → Option (Nat × List Nat)
  | 0, _, _, _ => none
  | _ + 1, _, _, [] => none
  | fuel + 1, shift, acc, b :: rest =>
      if b < 128 then some (acc + b * 2 ^ shift, rest)
      else varuintDecodeAux fuel (shift + 7) (acc + (b - 128) * 2 ^ shift) rest

/-- ReadVarint: decoding fails if more than ten bytes are consumed without
a terminating byte. -/
def varuintDecode (input : List Nat) : Option (Nat × List Nat) :=
  varuintDecodeAux 10 0 0 input

/-- WriteString: varuint length followed by the bytes. -/
def writeString (s : List Nat) : List Nat := varuintEncode s.length ++ s

/-- ReadString: varuint length followed by that many bytes. -/
def readString (input : List Nat) : Option (List Nat × List Nat) := do
  let (len, r) ← varuintDecode input
  readBytes len r

/-- Read rows consecutive length-prefixed strings. -/
def readStrings : Nat → List Nat → Option (List (List Nat) × List Nat)
  | 0, input => some ([], input)
  | rows + 1, input => do
      let (s, r1) ← readString input
      let (ss, r2) ← readStrings rows r1
      pure (s :: ss, r2)

/-! ### Array offset helpers (array.cpp) -/

/-- ColumnArray::GetOffset(n): 0 for row 0, otherwise offsets[n-1]. -/
def arrGetOffset (off : List Nat) (n : Nat) : Nat :=
  if n = 0 then 0 else off.getD (n - 1) 0

/-- ColumnArray::GetSize(n): offsets[0] for row 0, otherwise the uint64
difference offsets[n] - offsets[n-1]. -/
def arrGetSize (off : List Nat) (n : Nat) : Nat :=
  if n = 0 then off.getD 0 0 else sub64 (off.getD n 0) (off.getD (n - 1) 0)

/-- The offset value pushed by ColumnArray::AppendAsColumn: the appended
column's size when the offsets column is empty, otherwise the last offset
plus that size (uint64 addition). -/
def arrPushOffset (off : List Nat) (sz : Nat) : Nat :=
  if off.length = 0 then sz else add64 (off.getD (off.length - 1) 0) sz

/-- Column::GetSize(n): 1 for scalar columns (column.h default), the array
row length for ColumnArray (array.cpp). -/
def Column.GetSize (c : Column) (n : Nat) : Nat :=
  match c with
  | .array _ off => arrGetSize off n
  | _ => 1

/-! ### Slice -/

/-- Initial capacity of a ColumnFixedString buffer, in rows (string.cpp). -/
def INITIAL_CAPACITY : Nat := 8

/-- A fresh ColumnFixedString(n): zero-filled buffer of 8 * n bytes, size 0
(string.cpp constructor). -/
def mkColumnFixedString (n : Nat) : Column :=
  .fixedString n (List.replicate (INITIAL_CAPACITY * n) 0) 0

/-- Column::Slice(begin, len).  C++ returns a ColumnRef and may raise; the
embedding returns the raised error on the left and the (possibly null)
ColumnRef on the right, with none standing for the default-constructed null
reference that ColumnArray::Slice returns (array.h).
ColumnFixedString::Slice builds a fresh column and overwrites its buffer
with the byte slice when begin is in range, but never assigns the result's
size_ field (string.cpp).  ColumnString::Slice slices the raw string vector
and the result's size is the slice length (string.cpp).  ColumnDate and
ColumnDateTime slice their inner column and append it into a fresh column
(date.cpp).  The nullable body is not under src/ and is modelled from the
spec: a fresh column holding the sliced nested column and null flags. -/
def Column.Slice : Column → Nat → Nat → Except ColumnError (Option Column)
  | .vec k d, b, l => .ok (some (.vec k (sliceVector d b l)))
  | .fixedString w buf s, b, l =>
      .ok (some (.fixedString w
        (if b < s then sliceVector buf (b * w) (l * w)
         else List.replicate (INITIAL_CAPACITY * w) 0) 0))
  | .string d _, b, l =>
      .ok (some (.string (sliceVector d b l) (sliceVector d b l).length))
  | .date d, b, l => .ok (some (.date (sliceVector d b l)))
  | .dateTime d, b, l => .ok (some (.dateTime (sliceVector d b l)))
  | .array _ _, _, _ => .ok none
  | .nullable n nulls, b, l =>
      match n.Slice b l with
      | .ok (some n2) => .ok (some (.nullable n2 (sliceVector nulls b l)))
      | _ => .ok none

/-- ColumnArray::GetAsColumn(n): slice of the inner column covering row n
(array.cpp); none when the slice is a null reference or the receiver is not
an array column. -/
def Column.GetAsColumn (c : Column) (n : Nat) : Option Column :=
  match c with
  | .array d off =>
      match d.Slice (arrGetOffset off n) (arrGetSize off n) with
      | .ok r => r
      | .error _ => none
  | _ => none

/-! ### Append-from-same and AppendAsColumn

ColumnArray::Append appends every row of another array column through
AppendAsColumn, which in turn appends into the inner column; the C++
recursion descends through child columns, so the embedding burns one unit
of fuel per array / nullable level (Column.Append supplies depth + 1 fuel,
which is always sufficient).  none marks undefined behaviour (a null
ColumnRef produced by an inner array slice being dereferenced) or the
type-mismatch exception of AppendAsColumn. -/

/-- ColumnArray::AppendAsColumn body (array.cpp), parameterised by the
append-from-same function used on the inner column: raises (none) if the
appended column's type differs from the inner type, otherwise pushes the
cumulative offset and appends the rows into the inner column. -/
def appendAsColumnGen (app : Column → Column → Option Column)
    (self piece : Column) : Option Column :=
  match self with
  | .array d off =>
      if piece.type = d.type then
        (app d piece).map (fun d2 => .array d2 (off ++ [arrPushOffset off piece.Size]))
      else none
  | _ => none

/-- The loop of ColumnArray::Append: AppendAsColumn for each row of the
other column, threading the evolving receiver. -/
def appendRowsGen (app : Column → Column → Option Column) :
    Column → List Column → Option Column
  | self, [] => some self
  | self, p :: ps =>
      (appendAsColumnGen app self p).bind (fun self2 => appendRowsGen app self2 ps)

/-- Column::Append(ColumnRef) of each variant, with fuel for the descent
into child columns.  ColumnVector (body not under src/, modelled from the
spec): appends the rows when the other column has the same descriptor, is
a silent no-op otherwise.  ColumnFixedString (string.cpp): when the widths
agree, concatenates the raw byte buffers and adds the sizes (the buffers
include capacity padding); silent no-op otherwise.  ColumnString
(string.cpp): concatenates the raw string vectors and adds the sizes.
ColumnDate / ColumnDateTime (date.cpp): append the inner columns.
ColumnArray (array.cpp): silent no-op on inner type mismatch, otherwise
AppendAsColumn of every row.  ColumnNullable (body not under src/,
modelled from the spec): appends nested and null-flag columns when the
types agree. -/
def appendF : Nat → Column → Column → Option Column
  | 0, _, _ => none
  | fuel + 1, self, other =>
      match self, other with
      | .vec k d, .vec k2 d2 =>
          some (if k = k2 then .vec k (d ++ d2) else .vec k d)
      | .vec k d, _ => some (.vec k d)
      | .fixedString w buf s, .fixedString w2 buf2 s2 =>
          some (if w = w2 then .fixedString w (buf ++ buf2) (s + s2)
                else .fixedString w buf s)
      | .fixedString w buf s, _ => some (.fixedString w buf s)
      | .string d s, .string d2 s2 => some (.string (d ++ d2) (s + s2))
      | .string d s, _ => some (.string d s)
      | .date d, .date d2 => some (.date (d ++ d2))
      | .date d, _ => some (.date d)
      | .dateTime d, .dateTime d2 => some (.dateTime (d ++ d2))
      | .dateTime d, _ => some (.dateTime d)
      | .array d off, .array d2 off2 =>
          if d2.type = d.type then
            match (List.range off2.length).mapM
                (fun i => Column.GetAsColumn (.array d2 off2) i) with
            | some ps => appendRowsGen (appendF fuel) (.array d off) ps
            | none => none
          else some (.array d off)
      | .array d off, _ => some (.array d off)
      | .nullable n nulls, .nullable n2 nulls2 =>
          if n2.type = n.type then
            (appendF fuel n n2).map (fun n3 => .nullable n3 (nulls ++ nulls2))
          else some (.nullable n nulls)
      | .nullable n nulls, _ => some (.nullable n nulls)

/-- Column::Append(ColumnRef): append-from-same with sufficient fuel. -/
def Column.Append (self other : Column) : Option Column :=
  appendF (self.type.depth + 1) self other

/-- ColumnArray::AppendAsColumn (array.cpp). -/
def Column.AppendAsColumn (self other : Column) : Option Column :=
  appendAsColumnGen (appendF self.type.depth) self other

/-! ### Element append and random access -/

/-- ColumnFixedString::EnlargeBuffer worker (string.cpp): double the buffer,
padding with zero bytes, until it holds need bytes.  One unit of fuel per
doubling; fuel equal to need suffices whenever the buffer is non-empty
(each doubling adds at least one byte).  A zero-length buffer makes the C++
loop spin forever; the model then returns the buffer unchanged, a case no
constructed column reaches since FixedString widths are at least 1. -/
def enlargeGo : Nat → List Nat → Nat → List Nat
  | 0, buf, _ => buf
  | fuel + 1, buf, need =>
      if need ≤ buf.length then buf
      else enlargeGo fuel (buf ++ List.replicate buf.length 0) need

/-- ColumnFixedString::EnlargeBuffer(new_size) on the byte buffer. -/
def enlargeBuffer (buf : List Nat) (need : Nat) : List Nat := enlargeGo need buf need

/-- ColumnFixedString::Append(const std::string&) (string.cpp): grow the
buffer, copy at most string_size_ bytes of the argument into the next row
slot (shorter inputs leave the zero padding in place) and bump size_.
No-op on other variants (the C++ method exists only on ColumnFixedString). -/
def Column.AppendFS (c : Column) (s : List Nat) : Column :=
  match c with
  | .fixedString w buf sz =>
      let buf1 := enlargeBuffer buf ((sz + 1) * w)
      let copySize := if s.length ≥ w then w else s.length
      .fixedString w (listWrite buf1 (sz * w) (s.take copySize)) (sz + 1)
  | c => c

/-- ColumnString::Append(const std::string&) (string.cpp): grow the slot
vector (to 8 slots, then doubling), store the string in slot size_ and bump
size_.  No-op on other variants. -/
def Column.AppendStr (c : Column) (s : List Nat) : Column :=
  match c with
  | .string d sz =>
      let d1 := if d.length ≤ sz then
          (if d.length = 0 then resizeList d 8 [] else resizeList d (2 * d.length) [])
        else d
      .string (d1.set sz s) (sz + 1)
  | c => c

/-- The void* source handed to AppendData: the C++ caller passes either a
null pointer, a pointer into an array of numeric values, or a pointer into
an array of std::string. -/
inductive DataPtr where
  | null
  | vals (vs : List Nat)
  | strs (ss : List (List Nat))

/-- ColumnVector::AppendData (numeric.h): insert n elements read from the
source pointer; reading from a null pointer or past the source is undefined
behaviour (none).  Inserting zero elements never touches the pointer. -/
def vecAppendData (data : List Nat) (src : DataPtr) (n : Nat) : Option (List Nat) :=
  match src with
  | .vals vs => if n ≤ vs.length then some (data ++ vs.take n) else none
  | .null => if n = 0 then some data else none
  | .strs _ => none

/-- Column::AppendData(v, n) of each variant.  ColumnVector (numeric.h)
inserts n values.  ColumnFixedString (string.cpp) copies n * string_size_
bytes.  ColumnString (string.cpp) appends n strings.  ColumnDate /
ColumnDateTime (date.cpp) append n time values, converted to days or
truncated to 32 bits.  ColumnNullable (nullable.h) calls AppendData on the
null-flag column with the literal 0 — a null source pointer — and then
forwards v to the nested column.  The Column base class (column.h) raises
for variants without an override (none). -/
def Column.AppendData : Column → DataPtr → Nat → Option Column
  | .vec k d, v, n => (vecAppendData d v n).map (fun d2 => .vec k d2)
  | .fixedString w buf s, .vals vs, n =>
      if n * w ≤ vs.length then
        some (.fixedString w
          (listWrite (enlargeBuffer buf ((s + n) * w)) (s * w) (vs.take (n * w)))
          (s + n))
      else none
  | .fixedString w buf s, .null, n =>
      if n = 0 then some (.fixedString w buf s) else none
  | .fixedString _ _ _, .strs _, _ => none
  | .string d s, .strs ss, n =>
      if n ≤ ss.length then
        some ((ss.take n).foldl Column.AppendStr (.string d s))
      else none
  | .string d s, .null, n => if n = 0 then some (.string d s) else none
  | .string _ _, .vals _, _ => none
  | .date d, .vals vs, n =>
      if n ≤ vs.length then
        some (.date (d ++ (vs.take n).map (fun v => v / 86400 % 2 ^ 16)))
      else none
  | .date d, .null, n => if n = 0 then some (.date d) else none
  | .date _, .strs _, _ => none
  | .dateTime d, .vals vs, n =>
      if n ≤ vs.length then
        some (.dateTime (d ++ (vs.take n).map (fun v => v % 2 ^ 32)))
      else none
  | .dateTime d, .null, n => if n = 0 then some (.dateTime d) else none
  | .dateTime _, .strs _, _ => none
  | .array _ _, _, _ => none
  | .nullable nested nulls, v, n => do
      let nulls2 ← vecAppendData nulls .null n
      let nested2 ← nested.AppendData v n
      pure (.nullable nested2 nulls2)

/-- Column::AppendValue(v) (column.h): AppendData of one element. -/
def Column.AppendValue (c : Column) (v : Nat) : Option Column :=
  c.AppendData (.vals [v]) 1

/-- ColumnFixedString::At(n) (string.cpp): the string_size_ bytes of row n,
raising (none) when n is at or past size_. -/
def Column.AtFS (c : Column) (n : Nat) : Option (List Nat) :=
  match c with
  | .fixedString w buf s =>
      if n < s then some ((buf.drop (n * w)).take w) else none
  | _ => none

/-- ColumnString::At(n) (string.cpp): the string at slot n, raising (none)
when n is at or past size_. -/
def Column.AtStr (c : Column) (n : Nat) : Option (List Nat) :=
  match c with
  | .string d s => if n < s then some (d.getD n []) else none
  | _ => none

/-- The numeric value a Column::Data pointer addresses: element n of a
numeric buffer, and for ColumnArray the first inner element of row n
(array.h: Addr(n) = inner addressing at GetOffset(n)); none for variants
whose Data pointee is not a single numeric value. -/
def Column.DataVal : Column → Nat → Option Nat
  | .vec _ d, n => some (d.getD n 0)
  | .date d, n => some (d.getD n 0)
  | .dateTime d, n => some (d.getD n 0)
  | .array d off, n => d.DataVal (arrGetOffset off n)
  | .nullable nested _, n => nested.DataVal n
  | _, _ => none

/-! ### Load and Save -/

/-- Column::Load(input, rows) of each variant, returning the grown column
and the remaining stream, or none when the reader ran short (the C++
methods then return false; partial states are not tracked).  ColumnVector
(body not under src/, modelled from the spec): rows little-endian values of
sizeof(T) bytes each, appended to the buffer.  ColumnFixedString
(string.cpp): resize the buffer to (size_ + rows) * string_size_ bytes and
read rows * string_size_ bytes into the tail.  ColumnString (string.cpp):
rows length-prefixed strings into fresh tail slots.  ColumnDate /
ColumnDateTime (date.cpp): load of the inner column.  ColumnArray
(array.cpp): read rows uint64 offsets, read offsets[new_end] inner
elements (the raw value, before rebasing), then — when the column already
held offsets — rebase each newly read offset by the previous cumulative
end using uint64 addition.  ColumnNullable (body not under src/, modelled
from the spec): rows null-flag bytes, then the nested column. -/
def Column.Load : Column → List Nat → Nat → Option (Column × List Nat)
  | .vec k d, input, rows =>
      (readVecValues k.width rows input).map
        (fun p => (.vec k (d ++ p.1), p.2))
  | .fixedString w buf s, input, rows =>
      (readBytes (rows * w) input).map
        (fun p =>
          (.fixedString w (listWrite (resizeList buf ((s + rows) * w) 0) (s * w) p.1)
            (s + rows), p.2))
  | .string d s, input, rows =>
      (readStrings rows input).map
        (fun p => (.string (listWrite (resizeList d (s + rows) []) s p.1) (s + rows), p.2))
  | .date d, input, rows =>
      (readVecValues 2 rows input).map (fun p => (.date (d ++ p.1), p.2))
  | .dateTime d, input, rows =>
      (readVecValues 4 rows input).map (fun p => (.dateTime (d ++ p.1), p.2))
  | .array d off, input, rows => do
      let (newOffs, r1) ← readVecValues 8 rows input
      let off1 := off ++ newOffs
      let loadSize := off1.getD (off1.length - 1) 0
      let (d2, r2) ← d.Load r1 loadSize
      let off2 := if 0 < off.length then
          off ++ newOffs.map (fun x => add64 x (off.getD (off.length - 1) 0))
        else off1
      pure (.array d2 off2, r2)
  | .nullable nested nulls, input, rows => do
      let (flags, r1) ← readVecValues 1 rows input
      let (nested2, r2) ← nested.Load r1 rows
      pure (.nullable nested2 (nulls ++ flags), r2)

/-- Column::Save(output) of each variant: the bytes written.  ColumnVector
(modelled from the spec): little-endian values, contiguous.
ColumnFixedString (string.cpp): the first size_ * string_size_ bytes of the
buffer.  ColumnString (string.cpp): the first size_ strings,
length-prefixed.  ColumnDate / ColumnDateTime (date.cpp): the inner
column.  ColumnArray (array.cpp): the offsets buffer then the inner
column.  ColumnNullable (modelled from the spec): the null-flag bytes then
the nested column. -/
def Column.Save : Column → List Nat
  | .vec k d => (d.map (uintLE k.width)).flatten
  | .fixedString w buf s => buf.take (s * w)
  | .string d s => ((d.take s).map writeString).flatten
  | .date d => (d.map (uintLE 2)).flatten
  | .dateTime d => (d.map (uintLE 4)).flatten
  | .array d off => (off.map (uintLE 8)).flatten ++ d.Save
  | .nullable nested nulls => (nulls.map (uintLE 1)).flatten ++ nested.Save

/-! ### Block (block.h, block.cpp) -/

/-- BlockInfo header fields with their defaults (block.h). -/
structure BlockInfo where
  is_overflows : Nat
  bucket_num : Int
deriving DecidableEq

/-- Errors raised by block operations, with the exception message. -/
inductive BlockError where
  | invalidArgument (msg : String)
  | outOfRange (msg : String)
deriving DecidableEq

/-- A block: the info header and the ordered (name, column) entries
(block.h: BlockInfo info_ and std::vector of ColumnItem). -/
structure Block where
  info : BlockInfo
  columns_ : List (String × Column)
deriving DecidableEq

/-- A default-constructed Block: no columns, default info header. -/
def Block.empty : Block := ⟨⟨0, -1⟩, []⟩

/-- Block::GetColumnCount (block.cpp). -/
def Block.GetColumnCount (b : Block) : Nat := b.columns_.length

/-- Block::GetRowCount (block.cpp): 0 when there are no columns, otherwise
the first column's size. -/
def Block.GetRowCount (b : Block) : Nat :=
  match b.columns_ with
  | [] => 0
  | c0 :: _ => c0.2.Size

/-- Block::AppendColumn (block.cpp): raise invalid-argument when the block
already has columns and the new column's size differs from the first
column's size (the exception text embeds both sizes); otherwise push the
entry.  The C++ method throws before mutating, so the error case carries no
changed block. -/
def Block.AppendColumn (b : Block) (name : String) (col : Column) :
    Except BlockError Block :=
  match b.columns_ with
  | [] => .ok ⟨b.info, b.columns_ ++ [(name, col)]⟩
  | c0 :: _ =>
      if col.Size ≠ c0.2.Size then
        .error (.invalidArgument
          ("all columns in block must have same count of rows, 1st column size "
            ++ toString c0.2.Size ++ " != " ++ toString col.Size))
      else .ok ⟨b.info, b.columns_ ++ [(name, col)]⟩

/-- Block::GetColumnName (block.h), with the out-of-range throw of
std::vector::at as none. -/
def Block.GetColumnName (b : Block) (idx : Nat) : Option String :=
  (b.columns_[idx]?).map (fun c => c.1)

/-- The block's index operator (block.cpp): the column at idx, raising
out-of-range (none) past the end. -/
def Block.getColumn (b : Block) (idx : Nat) : Option Column :=
  (b.columns_[idx]?).map (fun c => c.2)

/-- The assignment columns_[idx].name = name of Block::SetColumnName. -/
def setNameList : List (String × Column) → Nat → String → List (String × Column)
  | [], _, _ => []
  | c :: rest, 0, nm => (nm, c.2) :: rest
  | c :: rest, i + 1, nm => c :: setNameList rest i nm

/-- Block::SetColumnName (block.cpp). -/
def Block.SetColumnName (b : Block) (idx : Nat) (name : String) : Block :=
  ⟨b.info, setNameList b.columns_ idx name⟩

/-- Block::Clear (block.cpp): reset the info header to its defaults, empty
every column name and clear every column, keeping the column slots. -/
def Block.Clear (b : Block) : Block :=
  ⟨⟨0, -1⟩, b.columns_.map (fun c => ("", c.2.Clear))⟩

/-- Modelled from the spec: Block::ReserveRows (declared in block.h, its
body is not under src/) forwards the reservation to each column. -/
def Block.ReserveRows (b : Block) (rows : Nat) : Block :=
  ⟨b.info, b.columns_.map (fun c => (c.1, c.2.ReserveRows rows))⟩

/-- The block states reachable from a default-constructed block by the
public block operations: successful AppendColumn, Clear, SetColumnName and
ReserveRows. -/
inductive Reachable : Block → Prop where
  | empty : Reachable Block.empty
  | append {b b2 : Block} {name : String} {col : Column} :
      Reachable b → b.AppendColumn name col = .ok b2 → Reachable b2
  | clear {b : Block} : Reachable b → Reachable b.Clear
  | setName {b : Block} {idx : Nat} {name : String} :
      Reachable b → Reachable (b.SetColumnName idx name)
  | reserve {b : Block} {rows : Nat} :
      Reachable b → Reachable (b.ReserveRows rows)

/-! ### Concrete data for the scenario claims -/

/-- Wire bytes of the first incremental load of the S4 scenario: offsets
1, 3, 6 then six inner uint64 values. -/
def c1Input1 : List Nat :=
  (([1, 3, 6].map (uintLE 8)).flatten)
    ++ (([10, 20, 30, 40, 50, 60].map (uintLE 8)).flatten)

/-- Wire bytes of the second incremental load: raw offsets 2, 5 then five
inner uint64 values. -/
def c1Input2 : List Nat :=
  (([2, 5].map (uintLE 8)).flatten)
    ++ (([70, 80, 90, 91, 92].map (uintLE 8)).flatten)

/-- A fresh Array(UInt64) column. -/
def c1Fresh : Column := .array (.vec .uint64 []) []

/-- The Array(UInt64) column after the first load. -/
def c1Mid : Column := .array (.vec .uint64 [10, 20, 30, 40, 50, 60]) [1, 3, 6]

/-- The Array(UInt64) column after the second, rebased load. -/
def c1Final : Column :=
  .array (.vec .uint64 [10, 20, 30, 40, 50, 60, 70, 80, 90, 91, 92])
    [1, 3, 6, 8, 11]

/-- A FixedString(1) column holding the rows "a", "b". -/
def c4Col : Column := ((mkColumnFixedString 1).AppendFS [97]).AppendFS [98]

/-- An empty Array(UInt64) column. -/
def c5Col : Column := .array (.vec .uint64 []) []

/-- A FixedString(1) column holding the single row "x". -/
def c6A : Column := (mkColumnFixedString 1).AppendFS [120]

/-- A FixedString(1) column holding the single row "y". -/
def c6B : Column := (mkColumnFixedString 1).AppendFS [121]

/-- An empty Nullable(UInt64) column. -/
def c7Col : Column := .nullable (.vec .uint64 []) []

/-- A block with one UInt64 column of three rows. -/
def c3Block : Block := ⟨⟨0, -1⟩, [("id", Column.vec ScalarKind.uint64 [1, 2, 3])]⟩

/-- A block with a non-default info header and one populated column. -/
def c10Block : Block := ⟨⟨1, 5⟩, [("id", Column.vec ScalarKind.uint64 [1, 2])]⟩

/-! ### Helper lemmas -/

/-- Clearing any column variant yields size 0. -/
theorem Column.Clear_Size (c : Column) : c.Clear.Size = 0 := by
  cases c <;> simp [Column.Clear, Column.Size]

/-- Reserving capacity leaves every column's size unchanged. -/
theorem Column.ReserveRows_Size (c : Column) (r : Nat) :
    (c.ReserveRows r).Size = c.Size := by
  cases c <;> simp [Column.ReserveRows, Column.Size]

/-- Renaming an entry leaves the column sequence unchanged. -/
theorem setNameList_snd (l : List (String × Column)) (i : Nat) (nm : String) :
    (setNameList l i nm).map Prod.snd = l.map Prod.snd := by
  induction l generalizing i with
  | nil => rfl
  | cons c rest ih =>
      cases i with
      | zero => rfl
      | succ j => simp [setNameList, ih]

/-- A block without columns reports zero rows. -/
theorem Block.rowCount_nil (b : Block) (h : b.columns_ = []) : b.GetRowCount = 0 := by
  simp [Block.GetRowCount, h]

/-- The row count seen through the column sequence only. -/
theorem Block.getRowCount_eq (b : Block) :
    b.GetRowCount = ((b.columns_.map Prod.snd).head?.map Column.Size).getD 0 := by
  cases h : b.columns_ <;> simp [Block.GetRowCount, h]

/-- The success and failure cases of Block::AppendColumn, phrased through
the block's row count (when the block is non-empty, the first column's
size against which the source compares is exactly the row count). -/
theorem Block.appendColumn_eq (b : Block) (name : String) (c : Column) :
    b.AppendColumn name c =
      if b.columns_ = [] ∨ c.Size = b.GetRowCount then
        .ok ⟨b.info, b.columns_ ++ [(name, c)]⟩
      else
        .error (.invalidArgument
          ("all columns in block must have same count of rows, 1st column size "
            ++ toString b.GetRowCount ++ " != " ++ toString c.Size)) := by
  obtain ⟨info, cols⟩ := b
  cases cols with
  | nil => simp [Block.AppendColumn]
  | cons c0 rest =>
      by_cases h : c.Size = c0.2.Size
      · simp [Block.AppendColumn, Block.GetRowCount, h]
      · simp [Block.AppendColumn, Block.GetRowCount, h]

/-- In every reachable block, each column's size equals the row count. -/
theorem reachable_sizes (b : Block) (h : Reachable b) :
    ∀ p ∈ b.columns_, p.2.Size = b.GetRowCount := by
  induction h with
  | empty => simp [Block.empty]
  | @append b b2 name col _ heq ih =>
      rw [Block.appendColumn_eq] at heq
      by_cases hc : b.columns_ = [] ∨ col.Size = b.GetRowCount
      · rw [if_pos hc] at heq
        injection heq with heq2
        subst heq2
        intro p hp
        have hp2 : p ∈ b.columns_ ++ [(name, col)] := hp
        cases hcols : b.columns_ with
        | nil =>
            rw [hcols] at hp2
            have hpn : p = (name, col) := by simpa using hp2
            rw [hpn]
            rfl
        | cons c0 rest =>
            show p.2.Size = c0.2.Size
            have hbrc : b.GetRowCount = c0.2.Size := by
              rw [Block.getRowCount_eq, hcols]
              rfl
            rw [hcols] at hp2
            rcases List.mem_append.mp hp2 with hold | hnew
            · have hmem : p ∈ b.columns_ := by rw [hcols]; exact hold
              exact (ih p hmem).trans hbrc
            · have hpn : p = (name, col) := by simpa using hnew
              rw [hpn]
              rcases hc with hnil | hsz
              · rw [hnil] at hcols
                exact absurd hcols (by simp)
              · exact hsz.trans hbrc
      · rw [if_neg hc] at heq
        exact Except.noConfusion heq
  | @clear b _ ih =>
      intro p hp
      simp only [Block.Clear] at hp
      rcases List.mem_map.mp hp with ⟨q, hq, hpq⟩
      rw [← hpq]
      rw [Block.getRowCount_eq]
      cases hcols : b.columns_ with
      | nil => rw [hcols] at hq; simp at hq
      | cons c0 rest =>
          simp [Block.Clear, hcols, Column.Clear_Size]
  | @setName b idx name _ ih =>
      intro p hp
      have hsnd : (setNameList b.columns_ idx name).map Prod.snd
          = b.columns_.map Prod.snd := setNameList_snd _ _ _
      have hp2 : p.2 ∈ b.columns_.map Prod.snd := by
        rw [← hsnd]
        exact List.mem_map.mpr ⟨p, hp, rfl⟩
      rcases List.mem_map.mp hp2 with ⟨q, hq, hqp⟩
      have hrc : (b.SetColumnName idx name).GetRowCount = b.GetRowCount := by
        rw [Block.getRowCount_eq (b.SetColumnName idx name), Block.getRowCount_eq b]
        have hcol : (b.SetColumnName idx name).columns_
            = setNameList b.columns_ idx name := rfl
        rw [hcol, hsnd]
      rw [hrc, ← hqp]
      exact ih q hq
  | @reserve b rows _ ih =>
      intro p hp
      simp only [Block.ReserveRows] at hp
      rcases List.mem_map.mp hp with ⟨q, hq, hpq⟩
      have hrc : (b.ReserveRows rows).GetRowCount = b.GetRowCount := by
        rw [Block.getRowCount_eq, Block.getRowCount_eq]
        cases hcols : b.columns_ with
        | nil => simp [Block.ReserveRows, hcols]
        | cons c0 rest =>
            simp [Block.ReserveRows, hcols, Column.ReserveRows_Size]
      rw [← hpq, hrc]
      simp only [Column.ReserveRows_Size]
      exact ih q hq

/-- uint64 subtraction is plain subtraction when no wrap occurs. -/
theorem sub64_of_le (a b : Nat) (hba : b ≤ a) (ha : a < U64MOD) :
    sub64 a b = a - b := by
  unfold sub64
  have h1 : U64MOD + a - b = U64MOD + (a - b) := by omega
  rw [h1, Nat.add_mod_left]
  exact Nat.mod_eq_of_lt (by omega)

/-- The offset pushed by AppendAsColumn is the previous cumulative end plus
the appended size when that sum does not wrap. -/
theorem arrPushOffset_eq (off : List Nat) (sz : Nat)
    (h : off.getD (off.length - 1) 0 + sz < U64MOD) :
    arrPushOffset off sz = off.getD (off.length - 1) 0 + sz := by
  unfold arrPushOffset
  by_cases h0 : off.length = 0
  · rw [if_pos h0]
    have hnil : off = [] := List.length_eq_zero.mp h0
    subst hnil
    simp
  · rw [if_neg h0]
    unfold add64
    exact Nat.mod_eq_of_lt h

/-- Appending an element at least as large as the last entry keeps a list
non-decreasing. -/
theorem chain'_le_concat : ∀ (l : List Nat) (v : Nat), List.Chain' (· ≤ ·) l →
    l.getD (l.length - 1) 0 ≤ v → List.Chain' (· ≤ ·) (l ++ [v]) := by
  intro l
  induction l with
  | nil => intro v _ _; simp
  | cons a t ih =>
      intro v hs hle
      cases t with
      | nil => exact List.chain'_pair.mpr hle
      | cons b t2 =>
          have hs2 := List.chain'_cons.mp hs
          exact List.chain'_cons.mpr ⟨hs2.1, ih v hs2.2 hle⟩

/-- Adjacent entries of a non-decreasing list are ordered. -/
theorem chain'_le_getD : ∀ (l : List Nat), List.Chain' (· ≤ ·) l →
    ∀ j, j + 1 < l.length → l.getD j 0 ≤ l.getD (j + 1) 0 := by
  intro l
  induction l with
  | nil => intro _ j h; simp at h
  | cons a t ih =>
      intro hs j hj
      cases t with
      | nil => simp at hj
      | cons b t2 =>
          have hs2 := List.chain'_cons.mp hs
          cases j with
          | zero => exact hs2.1
          | succ m => exact ih hs2.2 m (by simpa using hj)

/-- An in-range getD is a member. -/
theorem getD_mem : ∀ (l : List Nat) (n : Nat), n < l.length → l.getD n 0 ∈ l := by
  intro l
  induction l with
  | nil => intro n h; simp at h
  | cons a t ih =>
      intro n h
      cases n with
      | zero => exact List.mem_cons_self a t
      | succ m => exact List.mem_cons_of_mem a (ih m (by simpa using h))

/-- In a non-decreasing offsets column of uint64 values, each offset is the
telescoping sum of the per-row sizes up to and including its row. -/
theorem offsets_telescope (l : List Nat) (hs : List.Chain' (· ≤ ·) l)
    (hb : ∀ x ∈ l, x < U64MOD) :
    ∀ i, i < l.length →
      ((List.range (i + 1)).map (arrGetSize l)).sum = l.getD i 0 := by
  intro i
  induction i with
  | zero =>
      intro _
      have h1 : List.range 1 = [0] := rfl
      simp [arrGetSize, h1, List.getD]
  | succ j ih =>
      intro hi
      rw [List.range_succ, List.map_append, List.sum_append]
      rw [ih (by omega)]
      simp only [List.map_cons, List.map_nil, List.sum_cons, List.sum_nil, add_zero]
      have hle : l.getD j 0 ≤ l.getD (j + 1) 0 := chain'_le_getD l hs j hi
      have hlt : l.getD (j + 1) 0 < U64MOD := hb _ (getD_mem l (j + 1) hi)
      rw [arrGetSize, if_neg (by omega)]
      rw [show j + 1 - 1 = j from rfl]
      rw [sub64_of_le _ _ hle hlt]
      omega

/-! ### Claim theorems -/

/-- C1: incremental array load rebases offsets.  Loading offsets [1, 3, 6]
with inner elements 10..60 into a fresh Array(UInt64) column and then
offsets [2, 5] with inner elements 70, 80, 90, 91, 92 into the same column
yields cumulative offsets [1, 3, 6, 8, 11] over the concatenated inner
elements, with element count 2 at row 3 and the row-3 data pointer
addressing the inner element 70. -/
theorem C1_array_incremental_load :
    c1Fresh.Load c1Input1 3 = some (c1Mid, [])
      ∧ c1Mid.Load c1Input2 2 = some (c1Final, [])
      ∧ c1Final.GetSize 3 = 2
      ∧ c1Final.DataVal 3 = some 70 :=
  ⟨rfl, rfl, rfl, rfl⟩

/-- C4 (code bug): ColumnFixedString::Slice copies the requested bytes into
the fresh column but never assigns its size_ field, so the slice of a
2-row FixedString(1) column requested with begin 0, len 2 reports size 0
instead of min(len, size - begin) = 2. -/
theorem C4_fixed_string_slice_size_bug :
    c4Col.Size = 2
      ∧ c4Col.Slice 0 2 = .ok (some (.fixedString 1 [97, 98] 0))
      ∧ (Column.fixedString 1 [97, 98] 0).Size = 0
      ∧ min 2 (c4Col.Size - 0) = 2 :=
  ⟨rfl, rfl, rfl, rfl⟩

/-- C5 counterexample: ColumnArray::Slice(0, 0) on an Array(UInt64) column
does not raise Unsupported — it returns normally with a null ColumnRef. -/
theorem C5_array_slice_not_unsupported :
    c5Col.Slice 0 0 = .ok none
      ∧ c5Col.Slice 0 0 ≠ .error ColumnError.unsupported :=
  ⟨rfl, fun h => Except.noConfusion h⟩

/-- C5 amended: for every array column and all arguments, Slice raises no
error and returns the null column reference (array.h returns a
default-constructed ColumnRef). -/
theorem C5_array_slice_returns_null (d : Column) (off : List Nat) (b l : Nat) :
    (Column.array d off).Slice b l = .ok none := rfl

/-- C6 (code bug): ColumnFixedString::Append(ColumnRef) with equal widths
concatenates the raw capacity buffers, so after appending a 1-row
FixedString(1) column "y" to a 1-row FixedString(1) column "x" the size is
2 as claimed, but row 1 reads the zero padding of the first buffer instead
of "y". -/
theorem C6_fixed_string_append_capacity_bug :
    c6A.Append c6B
        = some (.fixedString 1
            [120, 0, 0, 0, 0, 0, 0, 0, 121, 0, 0, 0, 0, 0, 0, 0] 2)
      ∧ (c6A.Append c6B).bind (fun c => c.AtFS 1) = some [0]
      ∧ c6B.AtFS 0 = some [121] :=
  ⟨rfl, rfl, rfl⟩

/-- C7 (code bug): the single-value append on a nullable column hands the
null-flag column the literal 0 as its source pointer, so AppendValue reads
one byte from the null pointer (undefined behaviour, modelled as none)
instead of appending the flag 0 and growing the column by one row. -/
theorem C7_nullable_append_value_null_pointer :
    c7Col.AppendValue 7 = none ∧ c7Col.Size = 0 :=
  ⟨rfl, rfl⟩

/-- C2: Block::AppendColumn succeeds — pushing the entry and changing
nothing else — exactly when the block has no columns or the new column's
size equals the block's row count, and otherwise raises invalid-argument
(leaving the block unchanged: the C++ method throws before mutating, and
the embedding's error carries no new block). -/
theorem C2_block_append_column (b : Block) (name : String) (c : Column) :
    b.AppendColumn name c =
      if b.columns_ = [] ∨ c.Size = b.GetRowCount then
        .ok ⟨b.info, b.columns_ ++ [(name, c)]⟩
      else
        .error (.invalidArgument
          ("all columns in block must have same count of rows, 1st column size "
            ++ toString b.GetRowCount ++ " != " ++ toString c.Size)) :=
  Block.appendColumn_eq b name c

/-- C3: in every block state reachable from an empty block by the public
block operations, every column's size is the common row count, which is 0
when the block has no columns. -/
theorem C3_block_row_count_invariant (b : Block) (h : Reachable b) :
    (∀ p ∈ b.columns_, p.2.Size = b.GetRowCount)
      ∧ (b.columns_ = [] → b.GetRowCount = 0) :=
  ⟨reachable_sizes b h, Block.rowCount_nil b⟩

/-- C3 witness: the invariant evaluated in the block reached by appending
one three-row UInt64 column to the empty block. -/
theorem C3_block_row_count_invariant_witness :
    (Column.vec ScalarKind.uint64 [1, 2, 3]).Size = c3Block.GetRowCount :=
  (C3_block_row_count_invariant c3Block
      (Reachable.append Reachable.empty rfl)).1
    ("id", Column.vec ScalarKind.uint64 [1, 2, 3]) (by simp [c3Block])

/-- C10: Block::Clear resets the info header to its defaults, keeps the
column count, clears every column to size 0 and resets every column name
to the empty string. -/
theorem C10_block_clear (b : Block) :
    b.Clear.info = ⟨0, -1⟩
      ∧ b.Clear.GetColumnCount = b.GetColumnCount
      ∧ ∀ i, i < b.GetColumnCount →
          b.Clear.GetColumnName i = some ""
            ∧ ∃ c, b.Clear.getColumn i = some c ∧ c.Size = 0 := by
  refine ⟨rfl, by simp [Block.Clear, Block.GetColumnCount], ?_⟩
  intro i hi
  have hi2 : i < b.columns_.length := hi
  have hp : b.columns_[i]? = some b.columns_[i] :=
    List.getElem?_eq_getElem hi2
  constructor
  · simp [Block.Clear, Block.GetColumnName, List.getElem?_map, hp]
  · exact ⟨(b.columns_[i]).2.Clear,
      by simp [Block.Clear, Block.getColumn, List.getElem?_map, hp],
      Column.Clear_Size _⟩

/-- C10 witness: the cleared name, info header and column size in a
concrete one-column block. -/
theorem C10_block_clear_witness :
    c10Block.Clear.GetColumnName 0 = some "" :=
  ((C10_block_clear c10Block).2.2 0 (by decide)).1

/-- C8: for an array column whose offsets form a non-decreasing sequence of
uint64 values, appending a column of the inner element type as one row —
whenever the call completes without the undefined behaviour of deeply
nested inner slices and without uint64 overflow — grows the size by
exactly 1, pushes the previous cumulative end plus the appended size onto
the offsets, and the offsets stay non-decreasing with each offset equal to
the telescoping sum of the element counts of the rows up to it. -/
theorem C8_array_append_as_column (d : Column) (off : List Nat) (inner : Column)
    (a2 : Column)
    (htype : inner.type = d.type)
    (hsorted : List.Chain' (· ≤ ·) off)
    (hbound : ∀ x ∈ off, x < U64MOD)
    (hflow : off.getD (off.length - 1) 0 + inner.Size < U64MOD)
    (happ : (Column.array d off).AppendAsColumn inner = some a2) :
    (∃ d2, a2 = .array d2 (off ++ [off.getD (off.length - 1) 0 + inner.Size]))
      ∧ a2.Size = (Column.array d off).Size + 1
      ∧ List.Chain' (· ≤ ·) (off ++ [off.getD (off.length - 1) 0 + inner.Size])
      ∧ ∀ i, i < a2.Size →
          (off ++ [off.getD (off.length - 1) 0 + inner.Size]).getD i 0
            = ((List.range (i + 1)).map (a2.GetSize)).sum := by
  simp only [Column.AppendAsColumn, appendAsColumnGen, if_pos htype] at happ
  cases happF : appendF ((Column.array d off).type.depth) d inner with
  | none =>
      rw [happF] at happ
      exact Option.noConfusion happ
  | some d2 =>
      rw [happF] at happ
      simp only [Option.map_some'] at happ
      injection happ with happ2
      rw [arrPushOffset_eq off inner.Size hflow] at happ2
      subst happ2
      have hchain : List.Chain' (· ≤ ·)
          (off ++ [off.getD (off.length - 1) 0 + inner.Size]) :=
        chain'_le_concat off _ hsorted (Nat.le_add_right _ _)
      have hbound2 : ∀ x ∈ off ++ [off.getD (off.length - 1) 0 + inner.Size],
          x < U64MOD := by
        intro x hx
        rcases List.mem_append.mp hx with h1 | h2
        · exact hbound x h1
        · rw [List.mem_singleton.mp h2]; exact hflow
      refine ⟨⟨d2, rfl⟩, by simp [Column.Size], hchain, ?_⟩
      intro i hi
      have hi2 : i < (off ++ [off.getD (off.length - 1) 0 + inner.Size]).length := hi
      have hgs : (Column.array d2
            (off ++ [off.getD (off.length - 1) 0 + inner.Size])).GetSize
          = arrGetSize (off ++ [off.getD (off.length - 1) 0 + inner.Size]) := rfl
      rw [hgs]
      exact (offsets_telescope _ hchain hbound2 i hi2).symm

/-- C8 witness: appending a 2-row UInt64 column as one row of an empty
Array(UInt64) column grows the size from 0 to 1. -/
theorem C8_array_append_as_column_witness :
    (Column.array (Column.vec ScalarKind.uint64 [5, 6]) [2]).Size
      = (Column.array (Column.vec ScalarKind.uint64 []) []).Size + 1 :=
  (C8_array_append_as_column (Column.vec ScalarKind.uint64 []) []
      (Column.vec ScalarKind.uint64 [5, 6])
      (Column.array (Column.vec ScalarKind.uint64 [5, 6]) [2])
      rfl (by simp) (by simp) (by decide) rfl).2.1

/-- The varuint encoder does not depend on the fuel once it covers the
value. -/
theorem varuintEncodeGo_irrel : ∀ (fuel fuel2 n : Nat), n ≤ fuel → n ≤ fuel2 →
    varuintEncodeGo fuel n = varuintEncodeGo fuel2 n := by
  intro fuel
  induction fuel with
  | zero =>
      intro fuel2 n h h2
      have hn : n = 0 := Nat.le_zero.mp h
      subst hn
      cases fuel2 with
      | zero => rfl
      | succ f => simp [varuintEncodeGo]
  | succ f ih =>
      intro fuel2 n h h2
      cases fuel2 with
      | zero =>
          have hn : n = 0 := Nat.le_zero.mp h2
          subst hn
          simp [varuintEncodeGo]
      | succ f2 =>
          simp only [varuintEncodeGo]
          by_cases hn : n < 128
          · simp [hn]
          · simp only [if_neg hn]
            have hd : n / 128 < n := Nat.div_lt_self (by omega) (by omega)
            rw [ih f2 (n / 128) (by omega) (by omega)]

/-- Encoding a value below 128 is the single terminating byte. -/
theorem varuintEncode_lt (n : Nat) (h : n < 128) : varuintEncode n = [n] := by
  unfold varuintEncode
  cases n with
  | zero => rfl
  | succ m => simp [varuintEncodeGo, h]

/-- Encoding a value of at least 128 emits a continuation byte and recurses
on the value shifted by 7 bits. -/
theorem varuintEncode_ge (n : Nat) (h : 128 ≤ n) :
    varuintEncode n = (n % 128 + 128) :: varuintEncode (n / 128) := by
  unfold varuintEncode
  cases n with
  | zero => omega
  | succ m =>
      simp only [varuintEncodeGo]
      rw [if_neg (by omega : ¬ m + 1 < 128)]
      have hd : (m + 1) / 128 < m + 1 := Nat.div_lt_self (by omega) (by omega)
      rw [varuintEncodeGo_irrel m ((m + 1) / 128) ((m + 1) / 128) (by omega)
        (Nat.le_refl _)]

/-- Decoding inverts encoding, for any accumulator and shift, while the
value fits in the remaining fuel. -/
theorem varuintDecodeAux_encode : ∀ (fuel n acc shift : Nat) (rest : List Nat),
    n < 128 ^ (fuel + 1) →
    varuintDecodeAux (fuel + 1) shift acc (varuintEncode n ++ rest)
      = some (acc + n * 2 ^ shift, rest) := by
  intro fuel
  induction fuel with
  | zero =>
      intro n acc shift rest h
      have hn : n < 128 := by simpa using h
      rw [varuintEncode_lt n hn]
      simp [varuintDecodeAux, hn]
  | succ f ih =>
      intro n acc shift rest h
      by_cases hn : n < 128
      · rw [varuintEncode_lt n hn]
        simp [varuintDecodeAux, hn]
      · rw [varuintEncode_ge n (by omega)]
        simp only [List.cons_append, varuintDecodeAux]
        rw [if_neg (by omega : ¬ n % 128 + 128 < 128)]
        have hsub : n % 128 + 128 - 128 = n % 128 := by omega
        rw [hsub]
        have hdiv : n / 128 < 128 ^ (f + 1) := by
          rw [Nat.div_lt_iff_lt_mul (by omega : 0 < 128)]
          calc n < 128 ^ (f + 1 + 1) := h
            _ = 128 ^ (f + 1) * 128 := by rw [pow_succ]
        rw [List.append_eq, ih (n / 128) (acc + n % 128 * 2 ^ shift) (shift + 7) rest hdiv]
        have h2 : (2 : Nat) ^ (shift + 7) = 2 ^ shift * 128 := by
          rw [pow_add]
          norm_num
        have h3 : n % 128 + 128 * (n / 128) = n := Nat.mod_add_div n 128
        have h4 : acc + n % 128 * 2 ^ shift + n / 128 * 2 ^ (shift + 7)
            = acc + n * 2 ^ shift := by
          rw [h2]
          calc acc + n % 128 * 2 ^ shift + n / 128 * (2 ^ shift * 128)
              = acc + (n % 128 + 128 * (n / 128)) * 2 ^ shift := by ring
            _ = acc + n * 2 ^ shift := by rw [h3]
        rw [h4]

/-- Varuint round-trip for values below 128 ^ 10 (ten encoded bytes). -/
theorem varuintDecode_encode (n : Nat) (rest : List Nat) (h : n < 128 ^ 10) :
    varuintDecode (varuintEncode n ++ rest) = some (n, rest) := by
  have h2 := varuintDecodeAux_encode 9 n 0 0 rest h
  simpa [varuintDecode] using h2

/-- Length-prefixed string round-trip. -/
theorem readString_writeString (s : List Nat) (rest : List Nat)
    (h : s.length < 128 ^ 10) :
    readString (writeString s ++ rest) = some (s, rest) := by
  unfold readString writeString
  rw [List.append_assoc, varuintDecode_encode s.length (s ++ rest) h]
  show readBytes s.length (s ++ rest) = some (s, rest)
  unfold readBytes
  rw [if_pos (by simp)]
  rw [List.take_left, List.drop_left]

/-- Round-trip of a sequence of length-prefixed strings. -/
theorem readStrings_writeStrings : ∀ (ss : List (List Nat)) (rest : List Nat),
    (∀ x ∈ ss, x.length < 128 ^ 10) →
    readStrings ss.length ((ss.map writeString).flatten ++ rest) = some (ss, rest) := by
  intro ss
  induction ss with
  | nil =>
      intro rest _
      simp [readStrings]
  | cons s t ih =>
      intro rest h
      simp only [List.map_cons, List.flatten_cons, List.length_cons,
        List.append_assoc, readStrings]
      rw [readString_writeString s _ (h s (List.mem_cons_self s t))]
      show (readStrings t.length ((t.map writeString).flatten ++ rest)).bind _ = _
      rw [ih rest (fun x hx => h x (List.mem_cons_of_mem s hx))]
      rfl

/-- getD of a long-enough take agrees with getD of the list. -/
theorem getD_take_eq : ∀ (l : List (List Nat)) (s i : Nat), i < s →
    (l.take s).getD i [] = l.getD i [] := by
  intro l
  induction l with
  | nil =>
      intro s i _
      simp
  | cons a t ih =>
      intro s i h
      cases s with
      | zero => omega
      | succ s2 =>
          cases i with
          | zero => rfl
          | succ j => exact ih s2 j (by omega)

/-- Loading into the freshly resized slots of an empty string column
stores exactly the decoded strings. -/
theorem load_fresh_slots (ss : List (List Nat)) (s : Nat) (hlen : ss.length = s) :
    listWrite (resizeList [] s []) 0 ss = ss := by
  unfold listWrite resizeList
  simp [hlen, List.drop_replicate]

/-- C9: saving a variable-length String column and loading the produced
bytes into a fresh String column with the saved column's row count yields a
column with the same size and the same byte string at every row (the rows
are the first size_ entries of the stored vector; their lengths are below
2 ^ 64 as C++ string sizes are). -/
theorem C9_string_save_load_roundtrip (d : List (List Nat)) (s : Nat)
    (hwf : s ≤ d.length) (hlen : ∀ x ∈ d.take s, x.length < 2 ^ 64) :
    (Column.string [] 0).Load (Column.string d s).Save (Column.string d s).Size
        = some (.string (d.take s) s, [])
      ∧ (Column.string (d.take s) s).Size = (Column.string d s).Size
      ∧ ∀ i, i < (Column.string d s).Size →
          (Column.string (d.take s) s).AtStr i = (Column.string d s).AtStr i := by
  have hlen2 : ∀ x ∈ d.take s, x.length < 128 ^ 10 := by
    intro x hx
    have h1 := hlen x hx
    have h2 : (2 : Nat) ^ 64 ≤ 128 ^ 10 := by norm_num
    omega
  have htake : (d.take s).length = s := by
    rw [List.length_take]
    omega
  refine ⟨?_, rfl, ?_⟩
  · show (readStrings s (((d.take s).map writeString).flatten)).map
        (fun p => (Column.string (listWrite (resizeList [] (0 + s) []) 0 p.1)
          (0 + s), p.2)) = _
    have h3 := readStrings_writeStrings (d.take s) [] hlen2
    rw [htake, List.append_nil] at h3
    rw [h3]
    simp only [Option.map_some']
    rw [Nat.zero_add, load_fresh_slots (d.take s) s htake]
  · intro i hi
    have hi2 : i < s := hi
    have hgd := getD_take_eq d s i hi2
    simp [Column.AtStr, hi2, hgd]

/-- C9 witness: round-trip of a concrete two-row string column. -/
theorem C9_string_save_load_roundtrip_witness :
    (Column.string [] 0).Load (Column.string [[104, 105], []] 2).Save
        (Column.string [[104, 105], []] 2).Size
      = some (.string (([[104, 105], []] : List (List Nat)).take 2) 2, []) :=
  (C9_string_save_load_roundtrip [[104, 105], []] 2 (by decide) (by decide)).1

end ClickHouseModel
